import Mathlib

/-!
Shallow embedding of `src/fractals.py` (Barnsley fern, Hilbert curve,
Sierpinski triangle, dragon curve) and proofs about it.

Modelling conventions:
* a numpy `2×N` array of coordinates is a `List` of points (its columns,
  in order); `np.fliplr` is `List.reverse`, `np.concatenate(..., axis=1)`
  is `List.append`;
* integer-valued arrays (the Hilbert curve) are embedded over `ℤ`,
  float-valued arrays (Sierpinski, dragon) over `ℝ` with exact
  arithmetic, and the Barnsley fern over `ℚ` (all its constants are
  decimal literals);
* `np.random.random()` draws are an explicit stream `g : ℕ → ℚ`
  (`g i` is the i-th draw), and `np.random.seed` is a map from seeds to
  streams;
* the Python recursions guarded by `if n == 1` / `if n == 0` never reach
  their base case for out-of-domain orders; they are embedded twice:
  a total function on `ℕ` (the valid domain), and a fuel-indexed
  function on `ℤ` (`none` = no result after that many recursive calls)
  used to reason about out-of-domain inputs.
-/

namespace Fractals

/-- A point of an integer-valued array (one column of a numpy `2×N` array). -/
abbrev PtZ := ℤ × ℤ

/-- A point of a float-valued array, in exact real arithmetic. -/
abbrev PtR := ℝ × ℝ

/-- Maximum entry of an integer list, as `numpy.ndarray.max` computes it on a
nonempty array (`points[0].max()` in the source). numpy raises on an empty
array; the value `0` for `[]` is junk, never used: every Hilbert point list
is nonempty. -/
def amax : List ℤ → ℤ
  | [] => 0
  | x :: xs => xs.foldl max x

/-- Source `points[0].max()`: maximum x-coordinate of a point list. -/
def maxX (ps : List PtZ) : ℤ := amax (ps.map Prod.fst)

/-- Source `points[1].max()`: maximum y-coordinate of a point list. -/
def maxY (ps : List PtZ) : ℤ := amax (ps.map Prod.snd)

/-- Apply the quarter turn `(x, y) ↦ (-y, x)` (the array
`[-points[1], points[0]]` of `_rotate90_hilbert`) to every point, `k` times. -/
def rotN : ℕ → List PtZ → List PtZ
  | 0, ps => ps
  | k+1, ps => rotN k (ps.map (fun p => (-p.2, p.1)))

/-- Source `_rotate90_hilbert(points, k)`: it reduces `k` mod 4
(Python `%`, hence into `{0,1,2,3}`, which `Int.emod` matches), applies the
quarter turn once, returns if the reduced `k` is 1 and otherwise recurses
with `k-1`; unfolding that recursion applies the quarter turn exactly
`((k-1) mod 4) + 1` times (in particular 4 times when `k ≡ 0`). -/
def _rotate90_hilbert (ps : List PtZ) (k : ℤ) : List PtZ :=
  rotN (((k - 1).emod 4).toNat + 1) ps

/-- Source `_hilbert_top_left`: rotate by one quarter turn, add `points[0].max()`
to x, `points[1].max() + 1` to y, then `np.fliplr` (reverse). -/
def _hilbert_top_left (ps : List PtZ) : List PtZ :=
  ((_rotate90_hilbert ps 1).map
    (fun p => (p.1 + maxX ps, p.2 + (maxY ps + 1)))).reverse

/-- Source `_hilbert_bottom_left`: an unchanged copy. -/
def _hilbert_bottom_left (ps : List PtZ) : List PtZ := ps

/-- Source `_hilbert_bottom_right`: add `points[0].max() + 1` to x. -/
def _hilbert_bottom_right (ps : List PtZ) : List PtZ :=
  ps.map (fun p => (p.1 + (maxX ps + 1), p.2))

/-- Source `_hilbert_top_right`: rotate by three quarter turns, add
`points[0].max() + 1` to x and `2 * points[1].max() + 1` to y, then reverse. -/
def _hilbert_top_right (ps : List PtZ) : List PtZ :=
  ((_rotate90_hilbert ps 3).map
    (fun p => (p.1 + (maxX ps + 1), p.2 + (2 * maxY ps + 1)))).reverse

/-- Source `hilbert_curve` on its valid domain `n ≥ 1`: base case
`[[0,0,1,1],[1,0,0,1]]`, i.e. the columns `(0,1),(0,0),(1,0),(1,1)`;
recursive case the concatenation of the four quadrant blocks built from
the order-`n-1` curve. (`hilbert_curve 0` is out of domain — the Python
recursion does not terminate there, see `hilbertF` — and the value `[]`
is junk.) -/
def hilbert_curve : ℕ → List PtZ
  | 0 => []
  | 1 => [(0, 1), (0, 0), (1, 0), (1, 1)]
  | n+2 =>
    let ps := hilbert_curve (n+1)
    _hilbert_top_left ps ++ _hilbert_bottom_left ps
      ++ _hilbert_bottom_right ps ++ _hilbert_top_right ps

/-- Fuel-indexed `hilbert_curve` on arbitrary integer order, mirroring the
Python recursion `if n == 1 then base else recurse on n-1` step for step:
`none` means the recursion has not produced a result within `fuel`
recursive calls. -/
def hilbertF : ℕ → ℤ → Option (List PtZ)
  | 0, _ => none
  | fuel+1, n =>
    if n = 1 then some [(0, 1), (0, 0), (1, 0), (1, 1)]
    else (hilbertF fuel (n - 1)).map (fun ps =>
      _hilbert_top_left ps ++ _hilbert_bottom_left ps
        ++ _hilbert_bottom_right ps ++ _hilbert_top_right ps)

/-- The order-1 Sierpinski triangle `[[0,1,0.5,0],[0,0,0.5*sqrt(3),0]]`:
columns `(0,0),(1,0),(0.5,0.5*√3),(0,0)`. -/
noncomputable def sierpTriBase : List PtR :=
  [(0, 0), (1, 0), (0.5, 0.5 * Real.sqrt 3), (0, 0)]

/-- Source `sierpinski_triangle` on its valid domain `n ≥ 1`: at order `k = n+2`
the copies are shifted by `2**(k-3)` in x and `2**(k-3)*sqrt(3)` in y
(top) and by `2**(k-2)` in x (bottom right); Python `2**(k-3)` is a float
for `k = 2`, so the exponent is an integer zpow. Result order is
top ++ bottom-left ++ bottom-right. (`sierpinski_triangle 0` is out of
domain — the Python recursion does not terminate there, see `sierpF`.) -/
noncomputable def sierpinski_triangle : ℕ → List (List PtR)
  | 0 => []
  | 1 => [sierpTriBase]
  | n+2 =>
    let T := sierpinski_triangle (n+1)
    let top := T.map (List.map (fun p =>
      (p.1 + (2:ℝ) ^ ((n:ℤ) + 2 - 3), p.2 + (2:ℝ) ^ ((n:ℤ) + 2 - 3) * Real.sqrt 3)))
    let br := T.map (List.map (fun p => (p.1 + (2:ℝ) ^ ((n:ℤ) + 2 - 2), p.2)))
    top ++ T ++ br

/-- Fuel-indexed `sierpinski_triangle` on arbitrary integer order, mirroring
the Python recursion `if n == 1 then base else recurse on n-1`. -/
noncomputable def sierpF : ℕ → ℤ → Option (List (List PtR))
  | 0, _ => none
  | fuel+1, n =>
    if n = 1 then some [sierpTriBase]
    else (sierpF fuel (n - 1)).map (fun T =>
      T.map (List.map (fun p =>
        (p.1 + (2:ℝ) ^ (n - 3), p.2 + (2:ℝ) ^ (n - 3) * Real.sqrt 3)))
      ++ T
      ++ T.map (List.map (fun p => (p.1 + (2:ℝ) ^ (n - 2), p.2))))

/-- Source `_rotate90_dragon`: with `(xl, yl) = points[:, -1]` the map
`(x, y) ↦ (-y + yl + xl, x - xl + yl)` applied to every point, then
`np.fliplr` (reverse). The `getLastD` default is junk, never used: every
dragon point list is nonempty. -/
noncomputable def _rotate90_dragon (ps : List PtR) : List PtR :=
  let l := ps.getLastD (0, 0)
  (ps.map (fun p => (-p.2 + l.2 + l.1, p.1 - l.1 + l.2))).reverse

/-- The junction blend `p * (1-w) + q * w` applied coordinatewise
(lines `points[:, -1] = points[:, -1]*(1-ratio) + points[:, -2]*ratio` and
the analogous first-point line). -/
noncomputable def blendP (w : ℝ) (p q : PtR) : PtR :=
  (p.1 * (1 - w) + q.1 * w, p.2 * (1 - w) + q.2 * w)

/-- Source `dragon_curve` on its valid domain `n ≥ 0`: base case
`[[0,0],[0,1]]`, i.e. the columns `(0,0),(0,1)`; recursive case rotates
the order-`n` curve about its last point, blends the junction points with
weight `1 / (2 + sqrt 2)`, and concatenates. (For n < 0 the Python
recursion does not terminate, see `dragonF`.) -/
noncomputable def dragon_curve : ℕ → List PtR
  | 0 => [(0, 0), (0, 1)]
  | n+1 =>
    let ps := dragon_curve n
    let ps2 := _rotate90_dragon ps
    let w : ℝ := 1 / (2 + Real.sqrt 2)
    let ps' := ps.set (ps.length - 1)
      (blendP w (ps.getD (ps.length - 1) (0, 0)) (ps.getD (ps.length - 2) (0, 0)))
    let ps2' := ps2.set 0 (blendP w (ps2.getD 0 (0, 0)) (ps2.getD 1 (0, 0)))
    ps' ++ ps2'

/-- Fuel-indexed `dragon_curve` on arbitrary integer order, mirroring the
Python recursion `if n == 0 then base else recurse on n-1`. -/
noncomputable def dragonF : ℕ → ℤ → Option (List PtR)
  | 0, _ => none
  | fuel+1, n =>
    if n = 0 then some [(0, 0), (0, 1)]
    else (dragonF fuel (n - 1)).map (fun ps =>
      let ps2 := _rotate90_dragon ps
      let w : ℝ := 1 / (2 + Real.sqrt 2)
      let ps' := ps.set (ps.length - 1)
        (blendP w (ps.getD (ps.length - 1) (0, 0)) (ps.getD (ps.length - 2) (0, 0)))
      let ps2' := ps2.set 0 (blendP w (ps2.getD 0 (0, 0)) (ps2.getD 1 (0, 0)))
      ps' ++ ps2')

/-- One loop iteration of `barnsley_fern`: given the draw
`r = np.random.random()` and the previous point, the branch on
`r <= 0.01` / `r <= 0.86` / `r <= 0.93` / else, with the four affine maps
exactly as in the source. -/
def fernStep (r : ℚ) (p : ℚ × ℚ) : ℚ × ℚ :=
  if r ≤ 0.01 then (0, 0.16 * p.2)
  else if r ≤ 0.86 then
    (0.85 * p.1 + 0.04 * p.2, -0.04 * p.1 + 0.85 * p.2 + 1.6)
  else if r ≤ 0.93 then
    (0.2 * p.1 - 0.26 * p.2, 0.23 * p.1 + 0.22 * p.2 + 1.6)
  else
    (-0.15 * p.1 + 0.28 * p.2, 0.26 * p.1 + 0.24 * p.2 + 0.44)

/-- Column `i` of the `barnsley_fern` array: column 0 is `(0,0)`
(`np.zeros`), and the loop body sets column `i+1` from column `i` using the
`i`-th draw of the stream. -/
def fernPoint (g : ℕ → ℚ) : ℕ → ℚ × ℚ
  | 0 => (0, 0)
  | i+1 => fernStep (g i) (fernPoint g i)

/-- Source `barnsley_fern(n_points)` for `n_points ≥ 0` with draw stream `g`:
the columns of the filled array, i.e. `fernPoint g 0, …, fernPoint g (n-1)`. -/
def barnsley_fern (n : ℕ) (g : ℕ → ℚ) : List (ℚ × ℚ) :=
  (List.range n).map (fernPoint g)

/-- Source `barnsley_fern(n_points)` on arbitrary integer `n_points`:
`np.zeros((2, n_points))` raises `ValueError: negative dimensions are not
allowed` for negative `n_points`, before the loop runs. -/
def barnsley_fern_np (n : ℤ) (g : ℕ → ℚ) : Except String (List (ℚ × ℚ)) :=
  if n < 0 then Except.error "negative dimensions are not allowed"
  else Except.ok (barnsley_fern n.toNat g)

/-- Source `barnsley_fern(n_points, seed)` with a seed: `np.random.seed(seed)`
deterministically initialises the draw stream, modelled by a map `prng`
from seeds to streams. -/
def barnsley_fern_seeded (prng : ℤ → ℕ → ℚ) (n : ℤ) (seed : ℤ) :
    Except String (List (ℚ × ℚ)) :=
  barnsley_fern_np n (prng seed)

/-- Squared Euclidean distance between two points. -/
def sqDist (p q : PtR) : ℝ := (p.1 - q.1) ^ 2 + (p.2 - q.2) ^ 2

/-- Two grid points are within one grid unit of each other. -/
def unitAdj (p q : PtZ) : Prop := |p.1 - q.1| + |p.2 - q.2| ≤ 1

theorem rotN_length (k : ℕ) (ps : List PtZ) : (rotN k ps).length = ps.length := by
  induction k generalizing ps with
  | zero => rfl
  | succ k ih => simp [rotN, ih]

theorem hilbert_block_lengths (ps : List PtZ) :
    (_hilbert_top_left ps).length = ps.length ∧
    (_hilbert_bottom_left ps).length = ps.length ∧
    (_hilbert_bottom_right ps).length = ps.length ∧
    (_hilbert_top_right ps).length = ps.length := by
  simp [_hilbert_top_left, _hilbert_bottom_left, _hilbert_bottom_right,
    _hilbert_top_right, _rotate90_hilbert, rotN_length]

theorem hilbert_unfold (n : ℕ) :
    hilbert_curve (n+2) =
      _hilbert_top_left (hilbert_curve (n+1))
        ++ _hilbert_bottom_left (hilbert_curve (n+1))
        ++ _hilbert_bottom_right (hilbert_curve (n+1))
        ++ _hilbert_top_right (hilbert_curve (n+1)) := rfl

theorem hilbert_len_aux : ∀ n : ℕ, (hilbert_curve (n+1)).length = 4 ^ (n+1) := by
  intro n
  induction n with
  | zero => rfl
  | succ k ih =>
    rw [hilbert_unfold]
    have h := hilbert_block_lengths (hilbert_curve (k+1))
    simp only [List.length_append, h.1, h.2.1, h.2.2.1, h.2.2.2, ih]
    ring_nf

/-- C5: for every integer `n ≥ 1`, the point set returned by
`hilbert_curve n` has exactly `4 ^ n` points. -/
theorem hilbert_curve_point_count (n : ℕ) (h : 1 ≤ n) :
    (hilbert_curve n).length = 4 ^ n := by
  obtain ⟨m, rfl⟩ := Nat.exists_eq_add_of_le h
  rw [Nat.add_comm 1 m]
  exact hilbert_len_aux m

/-- Witness for C5 at `n = 1`. -/
theorem hilbert_curve_point_count_witness :
    1 ≤ 1 ∧ (hilbert_curve 1).length = 4 ^ 1 :=
  ⟨by decide, hilbert_curve_point_count 1 (by decide)⟩

theorem rotate90_dragon_length (ps : List PtR) :
    (_rotate90_dragon ps).length = ps.length := by
  simp [_rotate90_dragon]

theorem dragon_unfold (n : ℕ) :
    dragon_curve (n+1) =
      (dragon_curve n).set ((dragon_curve n).length - 1)
        (blendP (1 / (2 + Real.sqrt 2))
          ((dragon_curve n).getD ((dragon_curve n).length - 1) (0, 0))
          ((dragon_curve n).getD ((dragon_curve n).length - 2) (0, 0)))
      ++ (_rotate90_dragon (dragon_curve n)).set 0
        (blendP (1 / (2 + Real.sqrt 2))
          ((_rotate90_dragon (dragon_curve n)).getD 0 (0, 0))
          ((_rotate90_dragon (dragon_curve n)).getD 1 (0, 0))) := rfl

theorem dragon_len : ∀ n : ℕ, (dragon_curve n).length = 2 ^ (n+1) := by
  intro n
  induction n with
  | zero => rfl
  | succ k ih =>
    rw [dragon_unfold]
    simp only [List.length_append, List.length_set, rotate90_dragon_length, ih]
    ring_nf

/-- C1 (amended): `dragon_curve n` has exactly `2 ^ (n+1)` points, not
`2 ^ n + 1`: the recursion concatenates two copies without sharing the
junction point, so the count doubles from 2 at order 0. -/
theorem dragon_curve_point_count (n : ℕ) :
    (dragon_curve n).length = 2 ^ (n + 1) := dragon_len n

/-- C1 counterexample: at order 1 the dragon curve has 4 points, not
`2 ^ 1 + 1 = 3` as the claim states. -/
theorem dragon_curve_point_count_cex :
    (dragon_curve 1).length ≠ 2 ^ 1 + 1 := by
  rw [dragon_len]
  decide

/-- C3 counterexample: at `n_points = -1` the call fails
(`np.zeros((2, -1))` raises `ValueError`) instead of returning an empty
point set. -/
theorem barnsley_fern_nonpositive_cex :
    barnsley_fern_np (-1) (fun _ => 0)
      = Except.error "negative dimensions are not allowed" ∧
    barnsley_fern_np (-1) (fun _ => 0) ≠ Except.ok [] := by
  refine ⟨rfl, ?_⟩
  intro h
  rw [barnsley_fern_np] at h
  simp at h

/-- C3 (amended): `barnsley_fern` returns the empty point set for
`n_points = 0`, raises `ValueError: negative dimensions are not allowed`
for `n_points < 0` (from `np.zeros`), and for `n_points = 1` returns
exactly the single point `(0,0)` whatever the draw stream is (no random
draw influences the output). -/
theorem barnsley_fern_nonpositive (g : ℕ → ℚ) (n : ℤ) (hn : n < 0) :
    barnsley_fern_np 0 g = Except.ok [] ∧
    barnsley_fern_np n g = Except.error "negative dimensions are not allowed" ∧
    barnsley_fern_np 1 g = Except.ok [(0, 0)] := by
  refine ⟨rfl, ?_, rfl⟩
  rw [barnsley_fern_np, if_pos hn]

/-- Witness for C3's amended theorem at `n = -2` and a concrete stream. -/
theorem barnsley_fern_nonpositive_witness :
    (-2 : ℤ) < 0 ∧
    (barnsley_fern_np 0 (fun _ => 37/100) = Except.ok [] ∧
     barnsley_fern_np (-2) (fun _ => 37/100)
       = Except.error "negative dimensions are not allowed" ∧
     barnsley_fern_np 1 (fun _ => 37/100) = Except.ok [(0, 0)]) :=
  ⟨by decide, barnsley_fern_nonpositive (fun _ => 37/100) (-2) (by decide)⟩

/-- C7: two calls of `barnsley_fern` with the same point count and the same
seed read the same deterministically initialised draw stream (`prng` maps
a seed to the stream `np.random.seed` sets up), hence produce identical
output. -/
theorem barnsley_fern_deterministic (prng : ℤ → ℕ → ℚ) (n : ℤ) (s t : ℤ)
    (h : s = t) :
    barnsley_fern_seeded prng n s = barnsley_fern_seeded prng n t := by
  rw [h]

/-- Witness for C7 at `n = 5`, `seed = 42`. -/
theorem barnsley_fern_deterministic_witness :
    (42 : ℤ) = 42 ∧
    barnsley_fern_seeded (fun _ _ => 0) 5 42
      = barnsley_fern_seeded (fun _ _ => 0) 5 42 :=
  ⟨rfl, barnsley_fern_deterministic (fun _ _ => 0) 5 42 42 rfl⟩

theorem barnsley_fern_getD (g : ℕ → ℚ) (n i : ℕ) (h : i < n) :
    (barnsley_fern n g).getD i (0, 0) = fernPoint g i := by
  simp [barnsley_fern, List.getD_eq_getElem?_getD, List.getElem?_range, h]

/-- C8: in `barnsley_fern`, point 0 is the origin, each point `i` with
`1 ≤ i < n` is obtained by applying the drawn step to point `i-1`, and the
drawn value selects the four affine maps exactly at the boundaries
0.01, 0.86, 0.93, 1.0. -/
theorem barnsley_fern_step_rule (g : ℕ → ℚ) (n i : ℕ) (r : ℚ) (p : ℚ × ℚ)
    (h1 : 1 ≤ i) (h2 : i < n) :
    (barnsley_fern n g).getD 0 (0, 0) = (0, 0) ∧
    (barnsley_fern n g).getD i (0, 0) =
      fernStep (g (i - 1)) ((barnsley_fern n g).getD (i - 1) (0, 0)) ∧
    (r ≤ 0.01 → fernStep r p = (0, 0.16 * p.2)) ∧
    (0.01 < r → r ≤ 0.86 →
      fernStep r p = (0.85 * p.1 + 0.04 * p.2, -0.04 * p.1 + 0.85 * p.2 + 1.6)) ∧
    (0.86 < r → r ≤ 0.93 →
      fernStep r p = (0.2 * p.1 - 0.26 * p.2, 0.23 * p.1 + 0.22 * p.2 + 1.6)) ∧
    (0.93 < r →
      fernStep r p = (-0.15 * p.1 + 0.28 * p.2, 0.26 * p.1 + 0.24 * p.2 + 0.44)) := by
  obtain ⟨j, rfl⟩ := Nat.exists_eq_add_of_le h1
  rw [Nat.add_comm 1 j]
  refine ⟨?_, ?_, ?_, ?_, ?_, ?_⟩
  · rw [barnsley_fern_getD g n 0 (by omega)]
    rfl
  · rw [barnsley_fern_getD g n _ (by omega),
      barnsley_fern_getD g n _ (by omega)]
    have hj : j + 1 - 1 = j := by omega
    rw [hj]
    rfl
  · intro ha
    simp only [fernStep]
    rw [if_pos ha]
  · intro ha hb
    simp only [fernStep]
    rw [if_neg (by linarith), if_pos hb]
  · intro ha hb
    simp only [fernStep]
    rw [if_neg (by linarith), if_neg (by linarith), if_pos hb]
  · intro ha
    simp only [fernStep]
    rw [if_neg (by linarith), if_neg (by linarith), if_neg (by linarith)]

/-- Witness for C8 at `n = 2`, `i = 1`, `r = 1/2`, `p = (1, 2)` and the
constant stream `1/2`. -/
theorem barnsley_fern_step_rule_witness :
    1 ≤ 1 ∧ 1 < 2 ∧
    ((barnsley_fern 2 (fun _ => (1:ℚ)/2)).getD 0 (0, 0) = (0, 0) ∧
     (barnsley_fern 2 (fun _ => (1:ℚ)/2)).getD 1 (0, 0) =
       fernStep (1/2) ((barnsley_fern 2 (fun _ => (1:ℚ)/2)).getD 0 (0, 0)) ∧
     ((1:ℚ)/2 ≤ 0.01 → fernStep (1/2) (1, 2) = (0, 0.16 * 2)) ∧
     (0.01 < (1:ℚ)/2 → (1:ℚ)/2 ≤ 0.86 →
       fernStep (1/2) (1, 2)
         = (0.85 * 1 + 0.04 * 2, -0.04 * 1 + 0.85 * 2 + 1.6)) ∧
     (0.86 < (1:ℚ)/2 → (1:ℚ)/2 ≤ 0.93 →
       fernStep (1/2) (1, 2)
         = (0.2 * 1 - 0.26 * 2, 0.23 * 1 + 0.22 * 2 + 1.6)) ∧
     (0.93 < (1:ℚ)/2 →
       fernStep (1/2) (1, 2)
         = (-0.15 * 1 + 0.28 * 2, 0.26 * 1 + 0.24 * 2 + 0.44))) :=
  ⟨by decide, by decide,
    barnsley_fern_step_rule (fun _ => (1:ℚ)/2) 2 1 (1/2) (1, 2)
      (by decide) (by decide)⟩

theorem sierp_unfold (n : ℕ) :
    sierpinski_triangle (n+2) =
      (sierpinski_triangle (n+1)).map (List.map (fun p =>
        (p.1 + (2:ℝ) ^ ((n:ℤ) + 2 - 3),
         p.2 + (2:ℝ) ^ ((n:ℤ) + 2 - 3) * Real.sqrt 3)))
      ++ sierpinski_triangle (n+1)
      ++ (sierpinski_triangle (n+1)).map (List.map (fun p =>
        (p.1 + (2:ℝ) ^ ((n:ℤ) + 2 - 2), p.2))) := rfl

theorem map_shift_shift (l : List PtR) (a b c e : ℝ) :
    (l.map (fun p => (p.1 + a, p.2 + b))).map (fun p => (p.1 + c, p.2 + e))
      = l.map (fun p => (p.1 + (a + c), p.2 + (b + e))) := by
  induction l with
  | nil => rfl
  | cons x xs ih =>
    simp only [List.map_cons, ih, List.cons.injEq, and_true, Prod.mk.injEq]
    constructor <;> ring

theorem sierp_aux (n : ℕ) :
    (sierpinski_triangle (n+1)).length = 3 ^ n ∧
    ∀ t ∈ sierpinski_triangle (n+1), t.length = 4 ∧ t.head? = t.getLast? ∧
      ∃ d : PtR, t = sierpTriBase.map (fun p => (p.1 + d.1, p.2 + d.2)) := by
  induction n with
  | zero =>
    refine ⟨rfl, ?_⟩
    intro t ht
    simp only [sierpinski_triangle, List.mem_singleton] at ht
    subst ht
    refine ⟨rfl, rfl, (0, 0), ?_⟩
    simp [sierpTriBase]
  | succ k ih =>
    rw [sierp_unfold]
    refine ⟨?_, ?_⟩
    · simp only [List.length_append, List.length_map, ih.1]
      ring
    · intro t ht
      have shifted :
          ∀ (a b : ℝ), t ∈ (sierpinski_triangle (k+1)).map
            (List.map (fun p => (p.1 + a, p.2 + b))) →
          t.length = 4 ∧ t.head? = t.getLast? ∧
            ∃ d : PtR, t = sierpTriBase.map (fun p => (p.1 + d.1, p.2 + d.2)) := by
        intro a b hmem
        obtain ⟨t', ht', rfl⟩ := List.mem_map.1 hmem
        obtain ⟨hlen, hcl, d, hd⟩ := ih.2 t' ht'
        refine ⟨by simp [hlen], ?_, (d.1 + a, d.2 + b), ?_⟩
        · rw [List.head?_map, List.getLast?_map, hcl]
        · rw [hd, map_shift_shift]
      rcases List.mem_append.1 ht with ht' | hbr
      · rcases List.mem_append.1 ht' with htop | hbl
        · exact shifted _ _ htop
        · exact ih.2 t hbl
      · have hbr' : t ∈ (sierpinski_triangle (k+1)).map
            (List.map (fun p => (p.1 + (2:ℝ) ^ ((k:ℤ) + 2 - 2), p.2 + 0))) := by
          have : (List.map (fun p : PtR => (p.1 + (2:ℝ) ^ ((k:ℤ) + 2 - 2), p.2)))
              = (List.map (fun p : PtR => (p.1 + (2:ℝ) ^ ((k:ℤ) + 2 - 2), p.2 + 0))) := by
            funext l
            simp
          rw [← this]
          exact hbr
        exact shifted _ _ hbr'

/-- C6: for every `n ≥ 1`, `sierpinski_triangle n` returns exactly
`3 ^ (n-1)` triangles, and every triangle has exactly 4 points whose first
and last point coincide (a closed outline). -/
theorem sierpinski_triangle_count_closed (n : ℕ) (h : 1 ≤ n) :
    (sierpinski_triangle n).length = 3 ^ (n - 1) ∧
    ∀ t ∈ sierpinski_triangle n, t.length = 4 ∧ t.head? = t.getLast? := by
  obtain ⟨m, rfl⟩ := Nat.exists_eq_add_of_le h
  rw [Nat.add_comm 1 m]
  have hm : m + 1 - 1 = m := by omega
  rw [hm]
  exact ⟨(sierp_aux m).1,
    fun t ht => ⟨((sierp_aux m).2 t ht).1, ((sierp_aux m).2 t ht).2.1⟩⟩

/-- Witness for C6 at `n = 1`. -/
theorem sierpinski_triangle_count_closed_witness :
    1 ≤ 1 ∧ (sierpinski_triangle 1).length = 3 ^ (1 - 1) ∧
    sierpTriBase.length = 4 ∧ sierpTriBase.head? = sierpTriBase.getLast? := by
  have h := sierpinski_triangle_count_closed 1 (by decide)
  have h2 := h.2 sierpTriBase (by simp [sierpinski_triangle])
  exact ⟨by decide, h.1, h2.1, h2.2⟩

/-- C4 (amended): for every `n ≥ 1`, every triangle produced by
`sierpinski_triangle n` is a translate of the order-1 base triangle, hence
all triangles are congruent to each other and their side lengths equal the
base triangle's (scale factor 1, not `2^-(n-1)`: the recursion translates
the copies but never scales them). -/
theorem sierpinski_triangle_translates (n : ℕ) (h : 1 ≤ n) :
    ∀ t ∈ sierpinski_triangle n, ∃ d : PtR,
      t = sierpTriBase.map (fun p => (p.1 + d.1, p.2 + d.2)) ∧
      ∀ i j : Fin 4, sqDist (t.getD i.1 (0, 0)) (t.getD j.1 (0, 0))
        = sqDist (sierpTriBase.getD i.1 (0, 0)) (sierpTriBase.getD j.1 (0, 0)) := by
  obtain ⟨m, rfl⟩ := Nat.exists_eq_add_of_le h
  rw [Nat.add_comm 1 m]
  intro t ht
  obtain ⟨-, -, d, hd⟩ := (sierp_aux m).2 t ht
  subst hd
  refine ⟨d, rfl, ?_⟩
  intro i j
  fin_cases i <;> fin_cases j <;> simp [sierpTriBase, sqDist]

/-- Witness for C4's amended theorem at `n = 1`. -/
theorem sierpinski_triangle_translates_witness :
    1 ≤ 1 ∧ ∃ d : PtR,
      sierpTriBase = sierpTriBase.map (fun p => (p.1 + d.1, p.2 + d.2)) ∧
      ∀ i j : Fin 4,
        sqDist (sierpTriBase.getD i.1 (0, 0)) (sierpTriBase.getD j.1 (0, 0))
          = sqDist (sierpTriBase.getD i.1 (0, 0)) (sierpTriBase.getD j.1 (0, 0)) :=
  ⟨by decide, sierpinski_triangle_translates 1 (by decide) sierpTriBase
    (by simp [sierpinski_triangle])⟩

/-- C4 counterexample: at order 2 the first output triangle's first side
has squared length 1 — equal to the base triangle's, not
`(2^-(2-1))^2 = 1/4` times it as the claimed scaling would require. -/
theorem sierpinski_triangle_scale_cex :
    sqDist (((sierpinski_triangle 2).getD 0 []).getD 0 (0, 0))
        (((sierpinski_triangle 2).getD 0 []).getD 1 (0, 0))
      ≠ ((2:ℝ) ^ (-(1:ℤ))) ^ 2
        * sqDist (sierpTriBase.getD 0 (0, 0)) (sierpTriBase.getD 1 (0, 0)) := by
  have h2 : sierpinski_triangle 2 = sierpinski_triangle (0 + 2) := rfl
  rw [h2, sierp_unfold]
  simp only [sierpinski_triangle, List.map_cons, List.map_nil, List.cons_append,
    List.nil_append, sierpTriBase]
  norm_num [sqDist]

theorem hilbertF_none (fuel : ℕ) : ∀ n : ℤ, n < 1 → hilbertF fuel n = none := by
  induction fuel with
  | zero => intro n _; rfl
  | succ k ih =>
    intro n hn
    simp only [hilbertF]
    rw [if_neg (by omega), ih (n - 1) (by omega)]
    rfl

theorem sierpF_none (fuel : ℕ) : ∀ n : ℤ, n < 1 → sierpF fuel n = none := by
  induction fuel with
  | zero => intro n _; rfl
  | succ k ih =>
    intro n hn
    simp only [sierpF]
    rw [if_neg (by omega), ih (n - 1) (by omega)]
    rfl

theorem dragonF_none (fuel : ℕ) : ∀ n : ℤ, n < 0 → dragonF fuel n = none := by
  induction fuel with
  | zero => intro n _; rfl
  | succ k ih =>
    intro n hn
    simp only [dragonF]
    rw [if_neg (by omega), ih (n - 1) (by omega)]
    rfl

theorem hilbertF_agree : ∀ fuel n : ℕ, 1 ≤ n → n ≤ fuel →
    hilbertF fuel (n : ℤ) = some (hilbert_curve n) := by
  intro fuel
  induction fuel with
  | zero => intro n h1 h2; omega
  | succ k ih =>
    intro n h1 h2
    match n, h1, h2 with
    | 1, _, _ => simp [hilbertF, hilbert_curve]
    | (m+2), _, h2 =>
      simp only [hilbertF]
      rw [if_neg (by omega)]
      rw [show (((m+2 : ℕ) : ℤ) - 1) = ((m + 1 : ℕ) : ℤ) by push_cast; ring,
        ih (m + 1) (by omega) (by omega)]
      rfl

theorem sierpF_agree : ∀ fuel n : ℕ, 1 ≤ n → n ≤ fuel →
    sierpF fuel (n : ℤ) = some (sierpinski_triangle n) := by
  intro fuel
  induction fuel with
  | zero => intro n h1 h2; omega
  | succ k ih =>
    intro n h1 h2
    match n, h1, h2 with
    | 1, _, _ => simp [sierpF, sierpinski_triangle]
    | (m+2), _, h2 =>
      simp only [sierpF]
      rw [if_neg (by omega)]
      rw [show (((m+2 : ℕ) : ℤ) - 1) = ((m + 1 : ℕ) : ℤ) by push_cast; ring,
        ih (m + 1) (by omega) (by omega)]
      rw [Option.map_some', sierp_unfold]
      push_cast
      rfl

theorem dragonF_agree : ∀ fuel n : ℕ, n + 1 ≤ fuel →
    dragonF fuel (n : ℤ) = some (dragon_curve n) := by
  intro fuel
  induction fuel with
  | zero => intro n h; omega
  | succ k ih =>
    intro n h
    match n with
    | 0 => simp [dragonF, dragon_curve]
    | (m+1) =>
      simp only [dragonF]
      rw [if_neg (by omega)]
      rw [show (((m+1 : ℕ) : ℤ) - 1) = ((m : ℕ) : ℤ) by push_cast; ring,
        ih m (by omega)]
      rfl

/-- C2 counterexample: `hilbert_curve(0)`, `sierpinski_triangle(0)` and
`dragon_curve(-1)` are out of domain, yet after 100 recursive call steps
the embedded Python recursions have neither raised any error nor produced
any result — there is no fail-fast Invalid Domain Input check anywhere in
the code. -/
theorem invalid_domain_not_failfast_cex :
    hilbertF 100 0 = none ∧ sierpF 100 0 = none ∧ dragonF 100 (-1) = none :=
  ⟨hilbertF_none 100 0 (by decide), sierpF_none 100 0 (by decide),
    dragonF_none 100 (-1) (by decide)⟩

/-- C2 (amended): for out-of-domain orders (`n < 1` for Hilbert and
Sierpinski, `m < 0` for dragon) the code performs no domain check and
raises no Invalid Domain Input error: the recursion decrements past its
base case and never produces a result, whatever number of recursive calls
it is allowed (in Python it eventually dies with `RecursionError`); in
particular no partial result is ever returned. -/
theorem invalid_domain_diverges (fuel : ℕ) (n m : ℤ) (hn : n < 1) (hm : m < 0) :
    hilbertF fuel n = none ∧ sierpF fuel n = none ∧ dragonF fuel m = none :=
  ⟨hilbertF_none fuel n hn, sierpF_none fuel n hn, dragonF_none fuel m hm⟩

/-- Witness for C2's amended theorem at `fuel = 7`, `n = 0`, `m = -1`. -/
theorem invalid_domain_diverges_witness :
    (0 : ℤ) < 1 ∧ (-1 : ℤ) < 0 ∧
    (hilbertF 7 0 = none ∧ sierpF 7 0 = none ∧ dragonF 7 (-1) = none) :=
  ⟨by decide, by decide,
    invalid_domain_diverges 7 0 (-1) (by decide) (by decide)⟩

theorem one_le_two_pow_int (k : ℕ) : (1:ℤ) ≤ 2 ^ k := by
  induction k with
  | zero => norm_num
  | succ m ih => rw [pow_succ]; linarith

theorem foldl_max_le {xs : List ℤ} {a B : ℤ} (ha : a ≤ B) (h : ∀ x ∈ xs, x ≤ B) :
    xs.foldl max a ≤ B := by
  induction xs generalizing a with
  | nil => exact ha
  | cons x xs ih =>
    exact ih (max_le ha (h x (by simp))) (fun y hy => h y (by simp [hy]))

theorem le_foldl_max (xs : List ℤ) (a : ℤ) : a ≤ xs.foldl max a := by
  induction xs generalizing a with
  | nil => exact le_refl a
  | cons x xs ih => exact le_trans (le_max_left a x) (ih (max a x))

theorem mem_le_foldl_max {x : ℤ} {xs : List ℤ} (a : ℤ) (h : x ∈ xs) :
    x ≤ xs.foldl max a := by
  induction xs generalizing a with
  | nil => cases h
  | cons y ys ih =>
    rcases List.mem_cons.1 h with rfl | h'
    · exact le_trans (le_max_right a x) (le_foldl_max ys (max a x))
    · exact ih (max a y) h'

theorem le_amax {x : ℤ} {xs : List ℤ} (h : x ∈ xs) : x ≤ amax xs := by
  cases xs with
  | nil => cases h
  | cons y ys =>
    rcases List.mem_cons.1 h with rfl | h'
    · exact le_foldl_max ys x
    · exact mem_le_foldl_max y h'

theorem amax_eq {xs : List ℤ} {B : ℤ} (hmem : B ∈ xs) (hub : ∀ x ∈ xs, x ≤ B) :
    amax xs = B := by
  refine le_antisymm ?_ (le_amax hmem)
  cases xs with
  | nil => cases hmem
  | cons y ys =>
    exact foldl_max_le (hub y (by simp)) (fun x hx => hub x (by simp [hx]))

theorem maxX_eq {ps : List PtZ} {B : ℤ} {q : PtZ} (hq : q ∈ ps) (hq1 : q.1 = B)
    (hub : ∀ p ∈ ps, p.1 ≤ B) : maxX ps = B := by
  apply amax_eq
  · exact List.mem_map.2 ⟨q, hq, hq1⟩
  · intro x hx
    obtain ⟨p, hp, rfl⟩ := List.mem_map.1 hx
    exact hub p hp

theorem maxY_eq {ps : List PtZ} {B : ℤ} {q : PtZ} (hq : q ∈ ps) (hq2 : q.2 = B)
    (hub : ∀ p ∈ ps, p.2 ≤ B) : maxY ps = B := by
  apply amax_eq
  · exact List.mem_map.2 ⟨q, hq, hq2⟩
  · intro x hx
    obtain ⟨p, hp, rfl⟩ := List.mem_map.1 hx
    exact hub p hp

theorem mem_of_head?_eq {α : Type*} {l : List α} {a : α} (h : l.head? = some a) :
    a ∈ l := by
  cases l with
  | nil => cases h
  | cons x xs =>
    simp only [List.head?_cons, Option.some.injEq] at h
    exact h ▸ List.mem_cons_self x xs

theorem mem_of_getLast?_eq {α : Type*} {l : List α} {a : α} (h : l.getLast? = some a) :
    a ∈ l := by
  obtain ⟨hne, rfl⟩ := List.mem_getLast?_eq_getLast (Option.mem_def.mpr h)
  exact List.getLast_mem hne

theorem head?_append_some {α : Type*} {l l' : List α} {a : α} (h : l.head? = some a) :
    (l ++ l').head? = some a := by
  cases l with
  | nil => cases h
  | cons x xs => simpa using h

theorem getLast?_append_some {α : Type*} {l l' : List α} {a : α}
    (h : l'.getLast? = some a) : (l ++ l').getLast? = some a := by
  have hne : l' ≠ [] := by intro he; subst he; cases h
  rw [List.getLast?_append_of_ne_nil l hne]
  exact h

theorem top_left_eq (ps : List PtZ) :
    _hilbert_top_left ps
      = (ps.map (fun p => (-p.2 + maxX ps, p.1 + (maxY ps + 1)))).reverse := by
  show ((ps.map (fun p : PtZ => (-p.2, p.1))).map
    (fun p => (p.1 + maxX ps, p.2 + (maxY ps + 1)))).reverse = _
  rw [List.map_map]
  rfl

theorem top_right_eq (ps : List PtZ) :
    _hilbert_top_right ps
      = (ps.map (fun p => (p.2 + (maxX ps + 1), -p.1 + (2 * maxY ps + 1)))).reverse := by
  show ((((ps.map (fun p : PtZ => (-p.2, p.1))).map (fun p : PtZ => (-p.2, p.1))).map
      (fun p : PtZ => (-p.2, p.1))).map
      (fun p => (p.1 + (maxX ps + 1), p.2 + (2 * maxY ps + 1)))).reverse = _
  simp only [List.map_map]
  apply congrArg List.reverse
  apply List.map_congr_left
  intro p _
  simp only [Function.comp_apply, Prod.mk.injEq, neg_neg]

theorem blocks_of_inv (ps : List PtZ) (M : ℤ)
    (hh : ps.head? = some (0, M)) (hl : ps.getLast? = some (M, M))
    (hb : ∀ p ∈ ps, 0 ≤ p.1 ∧ p.1 ≤ M ∧ 0 ≤ p.2 ∧ p.2 ≤ M)
    (hx : maxX ps = M) (hy : maxY ps = M) :
    (_hilbert_top_left ps).head? = some (0, 2*M+1) ∧
    (_hilbert_top_left ps).getLast? = some (0, M+1) ∧
    (∀ p ∈ _hilbert_top_left ps, 0 ≤ p.1 ∧ p.1 ≤ M ∧ M+1 ≤ p.2 ∧ p.2 ≤ 2*M+1) ∧
    (_hilbert_bottom_right ps).head? = some (M+1, M) ∧
    (_hilbert_bottom_right ps).getLast? = some (2*M+1, M) ∧
    (∀ p ∈ _hilbert_bottom_right ps,
      M+1 ≤ p.1 ∧ p.1 ≤ 2*M+1 ∧ 0 ≤ p.2 ∧ p.2 ≤ M) ∧
    (_hilbert_top_right ps).head? = some (2*M+1, M+1) ∧
    (_hilbert_top_right ps).getLast? = some (2*M+1, 2*M+1) ∧
    (∀ p ∈ _hilbert_top_right ps,
      M+1 ≤ p.1 ∧ p.1 ≤ 2*M+1 ∧ M+1 ≤ p.2 ∧ p.2 ≤ 2*M+1) := by
  have htl : _hilbert_top_left ps
      = (ps.map (fun p => (-p.2 + M, p.1 + (M+1)))).reverse := by
    rw [top_left_eq, hx, hy]
  have hbr : _hilbert_bottom_right ps = ps.map (fun p => (p.1 + (M+1), p.2)) := by
    simp only [_hilbert_bottom_right, hx]
  have htr : _hilbert_top_right ps
      = (ps.map (fun p => (p.2 + (M+1), -p.1 + (2*M+1)))).reverse := by
    rw [top_right_eq, hx, hy]
  refine ⟨?_, ?_, ?_, ?_, ?_, ?_, ?_, ?_, ?_⟩
  · rw [htl, List.head?_reverse, List.getLast?_map, hl, Option.map_some']
    simp only [Option.some.injEq, Prod.mk.injEq]
    constructor <;> ring
  · rw [htl, List.getLast?_reverse, List.head?_map, hh, Option.map_some']
    simp only [Option.some.injEq, Prod.mk.injEq]
    constructor <;> ring
  · rw [htl]
    intro p hp
    rw [List.mem_reverse] at hp
    obtain ⟨q, hq, rfl⟩ := List.mem_map.1 hp
    obtain ⟨h1, h2, h3, h4⟩ := hb q hq
    exact ⟨by dsimp only; linarith, by dsimp only; linarith,
      by dsimp only; linarith, by dsimp only; linarith⟩
  · rw [hbr, List.head?_map, hh, Option.map_some']
    simp only [Option.some.injEq, Prod.mk.injEq]
    constructor <;> ring_nf
  · rw [hbr, List.getLast?_map, hl, Option.map_some']
    simp only [Option.some.injEq, Prod.mk.injEq]
    constructor <;> ring_nf
  · rw [hbr]
    intro p hp
    obtain ⟨q, hq, rfl⟩ := List.mem_map.1 hp
    obtain ⟨h1, h2, h3, h4⟩ := hb q hq
    exact ⟨by dsimp only; linarith, by dsimp only; linarith,
      by dsimp only; linarith, by dsimp only; linarith⟩
  · rw [htr, List.head?_reverse, List.getLast?_map, hl, Option.map_some']
    simp only [Option.some.injEq, Prod.mk.injEq]
    constructor <;> ring
  · rw [htr, List.getLast?_reverse, List.head?_map, hh, Option.map_some']
    simp only [Option.some.injEq, Prod.mk.injEq]
    constructor <;> ring
  · rw [htr]
    intro p hp
    rw [List.mem_reverse] at hp
    obtain ⟨q, hq, rfl⟩ := List.mem_map.1 hp
    obtain ⟨h1, h2, h3, h4⟩ := hb q hq
    exact ⟨by dsimp only; linarith, by dsimp only; linarith,
      by dsimp only; linarith, by dsimp only; linarith⟩

theorem hilbert_inv : ∀ n : ℕ,
    (hilbert_curve (n+1)).head? = some (0, 2^(n+1) - 1) ∧
    (hilbert_curve (n+1)).getLast? = some (2^(n+1) - 1, 2^(n+1) - 1) ∧
    (∀ p ∈ hilbert_curve (n+1),
      0 ≤ p.1 ∧ p.1 ≤ 2^(n+1) - 1 ∧ 0 ≤ p.2 ∧ p.2 ≤ 2^(n+1) - 1) ∧
    maxX (hilbert_curve (n+1)) = 2^(n+1) - 1 ∧
    maxY (hilbert_curve (n+1)) = 2^(n+1) - 1 := by
  intro n
  induction n with
  | zero => exact ⟨by decide, by decide, by decide, by decide, by decide⟩
  | succ k ih =>
    obtain ⟨hh, hl, hb, hx, hy⟩ := ih
    obtain ⟨tlh, tll, tlb, brh, brl, brb, trh, trl, trb⟩ :=
      blocks_of_inv (hilbert_curve (k+1)) (2^(k+1) - 1) hh hl hb hx hy
    have hidx : k + 1 + 1 = k + 2 := rfl
    rw [hidx, hilbert_unfold k]
    have hM2 : (2:ℤ)^(k+2) - 1 = 2*((2:ℤ)^(k+1) - 1)+1 := by rw [pow_succ]; ring
    have hM0 : (0:ℤ) ≤ 2^(k+1) - 1 := by
      have := one_le_two_pow_int (k+1); linarith
    rw [hM2]
    have hbds : ∀ p ∈ _hilbert_top_left (hilbert_curve (k+1))
        ++ _hilbert_bottom_left (hilbert_curve (k+1))
        ++ _hilbert_bottom_right (hilbert_curve (k+1))
        ++ _hilbert_top_right (hilbert_curve (k+1)),
        0 ≤ p.1 ∧ p.1 ≤ 2*((2:ℤ)^(k+1) - 1)+1 ∧
        0 ≤ p.2 ∧ p.2 ≤ 2*((2:ℤ)^(k+1) - 1)+1 := by
      intro p hp
      simp only [List.mem_append] at hp
      rcases hp with ((htl | hbl) | hbr2) | htr2
      · obtain ⟨h1, h2, h3, h4⟩ := tlb p htl
        exact ⟨by linarith, by linarith, by linarith, by linarith⟩
      · obtain ⟨h1, h2, h3, h4⟩ := hb p hbl
        exact ⟨by linarith, by linarith, by linarith, by linarith⟩
      · obtain ⟨h1, h2, h3, h4⟩ := brb p hbr2
        exact ⟨by linarith, by linarith, by linarith, by linarith⟩
      · obtain ⟨h1, h2, h3, h4⟩ := trb p htr2
        exact ⟨by linarith, by linarith, by linarith, by linarith⟩
    have hlast : (_hilbert_top_left (hilbert_curve (k+1))
        ++ _hilbert_bottom_left (hilbert_curve (k+1))
        ++ _hilbert_bottom_right (hilbert_curve (k+1))
        ++ _hilbert_top_right (hilbert_curve (k+1))).getLast?
        = some (2*((2:ℤ)^(k+1) - 1)+1, 2*((2:ℤ)^(k+1) - 1)+1) :=
      getLast?_append_some trl
    refine ⟨head?_append_some (head?_append_some (head?_append_some tlh)),
      hlast, hbds, ?_, ?_⟩
    · exact maxX_eq (mem_of_getLast?_eq hlast) rfl (fun p hp => (hbds p hp).2.1)
    · exact maxY_eq (mem_of_getLast?_eq hlast) rfl (fun p hp => (hbds p hp).2.2.2)

theorem unitAdj_vert (x y : ℤ) : unitAdj (x, y + 1) (x, y) := by
  unfold unitAdj
  dsimp only
  rw [sub_self, show y + 1 - y = (1:ℤ) by ring]
  norm_num

theorem unitAdj_vert' (x y : ℤ) : unitAdj (x, y) (x, y + 1) := by
  unfold unitAdj
  dsimp only
  rw [sub_self, show y - (y + 1) = (-1:ℤ) by ring]
  norm_num

theorem unitAdj_horiz (x y : ℤ) : unitAdj (x, y) (x + 1, y) := by
  unfold unitAdj
  dsimp only
  rw [sub_self, show x - (x + 1) = (-1:ℤ) by ring]
  norm_num

/-- C10: for every `n ≥ 1`, every point of `hilbert_curve n` has (integer,
by construction over `ℤ`) coordinates in `[0, 2^n - 1]` on both axes: the
order-`n` curve lies exactly on the `2^n × 2^n` grid. -/
theorem hilbert_curve_in_grid (n : ℕ) (h : 1 ≤ n) :
    ∀ p ∈ hilbert_curve n,
      0 ≤ p.1 ∧ p.1 ≤ 2^n - 1 ∧ 0 ≤ p.2 ∧ p.2 ≤ 2^n - 1 := by
  obtain ⟨m, rfl⟩ := Nat.exists_eq_add_of_le h
  rw [Nat.add_comm 1 m]
  exact (hilbert_inv m).2.2.1

/-- Witness for C10 at `n = 1`, point `(0, 1)`. -/
theorem hilbert_curve_in_grid_witness :
    1 ≤ 1 ∧ (0 ≤ ((0:ℤ), (1:ℤ)).1 ∧ ((0:ℤ), (1:ℤ)).1 ≤ 2^1 - 1 ∧
      0 ≤ ((0:ℤ), (1:ℤ)).2 ∧ ((0:ℤ), (1:ℤ)).2 ≤ 2^1 - 1) :=
  ⟨by decide, hilbert_curve_in_grid 1 (by decide) ((0:ℤ), (1:ℤ)) (by decide)⟩

/-- C9: for every `n > 1`, `hilbert_curve n` is the concatenation of its
four quadrant blocks (each of `4^(n-1)` points, in order top-left,
bottom-left, bottom-right, top-right), the blocks are pairwise disjoint
point sets, and the last point of each block is within one grid unit of
the first point of the next block, so the concatenation is a single
continuous path. -/
theorem hilbert_quadrants (n : ℕ) (h : 2 ≤ n) :
    hilbert_curve n
      = _hilbert_top_left (hilbert_curve (n-1))
        ++ _hilbert_bottom_left (hilbert_curve (n-1))
        ++ _hilbert_bottom_right (hilbert_curve (n-1))
        ++ _hilbert_top_right (hilbert_curve (n-1)) ∧
    (_hilbert_top_left (hilbert_curve (n-1))).length = 4^(n-1) ∧
    (_hilbert_bottom_left (hilbert_curve (n-1))).length = 4^(n-1) ∧
    (_hilbert_bottom_right (hilbert_curve (n-1))).length = 4^(n-1) ∧
    (_hilbert_top_right (hilbert_curve (n-1))).length = 4^(n-1) ∧
    (∀ p ∈ _hilbert_top_left (hilbert_curve (n-1)),
      p ∉ _hilbert_bottom_left (hilbert_curve (n-1)) ∧
      p ∉ _hilbert_bottom_right (hilbert_curve (n-1)) ∧
      p ∉ _hilbert_top_right (hilbert_curve (n-1))) ∧
    (∀ p ∈ _hilbert_bottom_left (hilbert_curve (n-1)),
      p ∉ _hilbert_bottom_right (hilbert_curve (n-1)) ∧
      p ∉ _hilbert_top_right (hilbert_curve (n-1))) ∧
    (∀ p ∈ _hilbert_bottom_right (hilbert_curve (n-1)),
      p ∉ _hilbert_top_right (hilbert_curve (n-1))) ∧
    (∃ a b, (_hilbert_top_left (hilbert_curve (n-1))).getLast? = some a ∧
      (_hilbert_bottom_left (hilbert_curve (n-1))).head? = some b ∧ unitAdj a b) ∧
    (∃ a b, (_hilbert_bottom_left (hilbert_curve (n-1))).getLast? = some a ∧
      (_hilbert_bottom_right (hilbert_curve (n-1))).head? = some b ∧ unitAdj a b) ∧
    (∃ a b, (_hilbert_bottom_right (hilbert_curve (n-1))).getLast? = some a ∧
      (_hilbert_top_right (hilbert_curve (n-1))).head? = some b ∧ unitAdj a b) := by
  obtain ⟨m, rfl⟩ := Nat.exists_eq_add_of_le h
  rw [Nat.add_comm 2 m]
  have hidx : m + 2 - 1 = m + 1 := rfl
  rw [hidx]
  obtain ⟨hh, hl, hb, hx, hy⟩ := hilbert_inv m
  obtain ⟨tlh, tll, tlb, brh, brl, brb, trh, trl, trb⟩ :=
    blocks_of_inv (hilbert_curve (m+1)) (2^(m+1) - 1) hh hl hb hx hy
  have hlen := hilbert_block_lengths (hilbert_curve (m+1))
  have hlen1 : (hilbert_curve (m+1)).length = 4^(m+1) := hilbert_len_aux m
  refine ⟨hilbert_unfold m, ?_, ?_, ?_, ?_, ?_, ?_, ?_, ?_, ?_, ?_⟩
  · rw [hlen.1, hlen1]
  · rw [hlen.2.1, hlen1]
  · rw [hlen.2.2.1, hlen1]
  · rw [hlen.2.2.2, hlen1]
  · intro p hp
    obtain ⟨t1, t2, t3, t4⟩ := tlb p hp
    refine ⟨fun hq => ?_, fun hq => ?_, fun hq => ?_⟩
    · obtain ⟨u1, u2, u3, u4⟩ := hb p hq; linarith
    · obtain ⟨u1, u2, u3, u4⟩ := brb p hq; linarith
    · obtain ⟨u1, u2, u3, u4⟩ := trb p hq; linarith
  · intro p hp
    obtain ⟨t1, t2, t3, t4⟩ := hb p hp
    refine ⟨fun hq => ?_, fun hq => ?_⟩
    · obtain ⟨u1, u2, u3, u4⟩ := brb p hq; linarith
    · obtain ⟨u1, u2, u3, u4⟩ := trb p hq; linarith
  · intro p hp
    obtain ⟨t1, t2, t3, t4⟩ := brb p hp
    intro hq
    obtain ⟨u1, u2, u3, u4⟩ := trb p hq
    linarith
  · exact ⟨(0, 2^(m+1) - 1 + 1), (0, 2^(m+1) - 1), tll, hh,
      unitAdj_vert 0 (2^(m+1) - 1)⟩
  · exact ⟨(2^(m+1) - 1, 2^(m+1) - 1), (2^(m+1) - 1 + 1, 2^(m+1) - 1), hl, brh,
      unitAdj_horiz (2^(m+1) - 1) (2^(m+1) - 1)⟩
  · exact ⟨(2*(2^(m+1) - 1)+1, 2^(m+1) - 1), (2*(2^(m+1) - 1)+1, 2^(m+1) - 1 + 1),
      brl, trh, unitAdj_vert' (2*(2^(m+1) - 1)+1) (2^(m+1) - 1)⟩

/-- Witness for C9 at `n = 2`. -/
theorem hilbert_quadrants_witness :
    2 ≤ 2 ∧
    (hilbert_curve 2
      = _hilbert_top_left (hilbert_curve 1)
        ++ _hilbert_bottom_left (hilbert_curve 1)
        ++ _hilbert_bottom_right (hilbert_curve 1)
        ++ _hilbert_top_right (hilbert_curve 1) ∧
    (_hilbert_top_left (hilbert_curve 1)).length = 4^1 ∧
    (_hilbert_bottom_left (hilbert_curve 1)).length = 4^1 ∧
    (_hilbert_bottom_right (hilbert_curve 1)).length = 4^1 ∧
    (_hilbert_top_right (hilbert_curve 1)).length = 4^1 ∧
    (∀ p ∈ _hilbert_top_left (hilbert_curve 1),
      p ∉ _hilbert_bottom_left (hilbert_curve 1) ∧
      p ∉ _hilbert_bottom_right (hilbert_curve 1) ∧
      p ∉ _hilbert_top_right (hilbert_curve 1)) ∧
    (∀ p ∈ _hilbert_bottom_left (hilbert_curve 1),
      p ∉ _hilbert_bottom_right (hilbert_curve 1) ∧
      p ∉ _hilbert_top_right (hilbert_curve 1)) ∧
    (∀ p ∈ _hilbert_bottom_right (hilbert_curve 1),
      p ∉ _hilbert_top_right (hilbert_curve 1)) ∧
    (∃ a b, (_hilbert_top_left (hilbert_curve 1)).getLast? = some a ∧
      (_hilbert_bottom_left (hilbert_curve 1)).head? = some b ∧ unitAdj a b) ∧
    (∃ a b, (_hilbert_bottom_left (hilbert_curve 1)).getLast? = some a ∧
      (_hilbert_bottom_right (hilbert_curve 1)).head? = some b ∧ unitAdj a b) ∧
    (∃ a b, (_hilbert_bottom_right (hilbert_curve 1)).getLast? = some a ∧
      (_hilbert_top_right (hilbert_curve 1)).head? = some b ∧ unitAdj a b)) :=
  ⟨by decide, hilbert_quadrants 2 (by decide)⟩

end Fractals
